import Mathlib

/-!
Shallow embedding of `montecarlo/montecarlo.py`: the `BitString` bit-configuration
class and the `IsingHamiltonian` class (energy functional, exact thermal averages,
ground-state search).

Conventions of the embedding:
* numpy integer arrays become `List ℕ`; real (float) scalars become `ℚ` where the
  code only adds, subtracts, multiplies and compares, and `ℝ` where `np.exp` is
  involved;
* a Python call that raises (out-of-bounds indexing, `math.log2` of a negative
  number, `error(...)`, decoding `None`) is modelled by an `Option` result of
  `none`; a successful call returns `some` of its value / updated object;
* `math.log2(dec) >= k` on a positive integer `dec` is modelled exactly as
  `2 ^ k ≤ dec`.
-/

/-- The `BitString` class: field `N` (the length passed to the constructor) and
field `config` (the numpy array of bits). -/
structure BitString where
  N : ℕ
  config : List ℕ
deriving DecidableEq, Repr

/-- `BitString.__init__`: `config = np.zeros(N)`. -/
def BitString.mkZero (N : ℕ) : BitString :=
  ⟨N, List.replicate N 0⟩

/-- The loop of `BitString.set_int_config`, building the fresh `other_bs.config`:
the first argument counts the positions still to fill, so the current position
has place value `2 ^ (n - 1)` when `n` positions remain.  `some` of the list of
bits on normal termination (including the early `break` when `dec == 0`, which
leaves the remaining positions at `0`); `none` when `math.log2(dec)` is applied
to a negative `dec` and raises. -/
def setIntLoop : ℕ → ℤ → Option (List ℕ)
  | 0, _ => some []
  | n + 1, dec =>
    if dec = 0 then
      some (List.replicate (n + 1) 0)
    else if dec < 0 then
      none
    else if 2 ^ n ≤ dec then
      (setIntLoop n (dec - 2 ^ n)).map (fun rest => 1 :: rest)
    else
      (setIntLoop n dec).map (fun rest => 0 :: rest)

/-- `BitString.set_int_config(dec)`: runs the loop on a fresh all-zero bitstring of
the receiver's length and installs the resulting array; the prior `config` of the
receiver is never read. -/
def BitString.set_int_config (b : BitString) (dec : ℤ) : Option BitString :=
  (setIntLoop b.N dec).map (fun c => ⟨b.N, c⟩)

/-- `BitString.int()`: the loop `for x in range(N)` accumulating
`dec += 2^(N-x-1)` whenever bit `x` equals `1`. -/
def BitString.int (b : BitString) : ℕ :=
  (List.range b.N).foldl
    (fun dec x => if b.config.getD x 0 = 1 then dec + 2 ^ (b.N - x - 1) else dec) 0

/-- Mathematical value of a bit list with the most-significant bit first (head
has place value `2 ^ length of the tail`). -/
def ofBits : List ℕ → ℕ
  | [] => 0
  | b :: t => (if b = 1 then 2 ^ t.length else 0) + ofBits t

lemma setIntLoop_length : ∀ (n : ℕ) (d : ℤ) (c : List ℕ),
    setIntLoop n d = some c → c.length = n := by
  intro n
  induction n with
  | zero =>
    intro d c h
    simp [setIntLoop] at h
    simp [← h]
  | succ m ih =>
    intro d c h
    rw [setIntLoop] at h
    split at h
    · simp at h
      simp [← h]
    · split at h
      · exact absurd h (by simp)
      · split at h
        · rcases Option.map_eq_some'.mp h with ⟨rest, hrest, hc⟩
          simpa [← hc] using ih _ rest hrest
        · rcases Option.map_eq_some'.mp h with ⟨rest, hrest, hc⟩
          simpa [← hc] using ih _ rest hrest

lemma setIntLoop_bits : ∀ (n : ℕ) (d : ℤ) (c : List ℕ),
    setIntLoop n d = some c → ∀ v ∈ c, v = 0 ∨ v = 1 := by
  intro n
  induction n with
  | zero =>
    intro d c h
    simp [setIntLoop] at h
    intro v hv
    subst h
    simp at hv
  | succ m ih =>
    intro d c h
    rw [setIntLoop] at h
    split at h
    · simp at h
      intro v hv
      left
      exact List.eq_of_mem_replicate (h ▸ hv)
    · split at h
      · exact absurd h (by simp)
      · split at h
        · rcases Option.map_eq_some'.mp h with ⟨rest, hrest, hc⟩
          intro v hv
          rcases List.mem_cons.mp (hc ▸ hv) with h1 | h1
          · right; exact h1
          · exact ih _ rest hrest v h1
        · rcases Option.map_eq_some'.mp h with ⟨rest, hrest, hc⟩
          intro v hv
          rcases List.mem_cons.mp (hc ▸ hv) with h1 | h1
          · left; exact h1
          · exact ih _ rest hrest v h1

lemma ofBits_replicate_zero (n : ℕ) : ofBits (List.replicate n 0) = 0 := by
  induction n with
  | zero => rfl
  | succ m ih => simpa [List.replicate_succ, ofBits] using ih

/-- The decode loop on an in-range nonnegative input terminates normally and
produces the binary digits of the input. -/
lemma setIntLoop_ofBits : ∀ (n : ℕ) (d : ℤ), 0 ≤ d → d < 2 ^ n →
    ∃ c, setIntLoop n d = some c ∧ (ofBits c : ℤ) = d := by
  intro n
  induction n with
  | zero =>
    intro d h0 h2
    refine ⟨[], rfl, ?_⟩
    simp [ofBits]
    omega
  | succ m ih =>
    intro d h0 h2
    by_cases hd0 : d = 0
    · refine ⟨List.replicate (m + 1) 0, ?_, ?_⟩
      · rw [setIntLoop]; simp [hd0]
      · simp [ofBits_replicate_zero, hd0]
    · by_cases hge : 2 ^ m ≤ d
      · have h0' : 0 ≤ d - 2 ^ m := by omega
        have h2' : d - 2 ^ m < 2 ^ m := by
          have : (2 : ℤ) ^ (m + 1) = 2 ^ m + 2 ^ m := by ring
          omega
        rcases ih (d - 2 ^ m) h0' h2' with ⟨rest, hrest, hval⟩
        refine ⟨1 :: rest, ?_, ?_⟩
        · rw [setIntLoop]
          simp [hd0, not_lt.mpr h0, hge, hrest]
        · have hlen := setIntLoop_length m _ rest hrest
          simp [ofBits, hlen]
          omega
      · have h2' : d < 2 ^ m := by omega
        rcases ih d h0 h2' with ⟨rest, hrest, hval⟩
        refine ⟨0 :: rest, ?_, ?_⟩
        · rw [setIntLoop]
          simp [hd0, not_lt.mpr h0, hge, hrest]
        · simpa [ofBits] using hval

lemma foldl_add_eq (g : ℕ → ℕ) (n : ℕ) (init : ℕ) :
    (List.range n).foldl (fun a x => a + g x) init =
      init + ∑ x ∈ Finset.range n, g x := by
  induction n generalizing init with
  | zero => simp
  | succ m ih =>
    rw [List.range_succ, List.foldl_append, ih, Finset.sum_range_succ]
    simp [Nat.add_assoc]

lemma ofBits_eq_sum (c : List ℕ) :
    ofBits c = ∑ x ∈ Finset.range c.length,
      (if c.getD x 0 = 1 then 2 ^ (c.length - x - 1) else 0) := by
  induction c with
  | nil => simp [ofBits]
  | cons b t ih =>
    rw [ofBits, ih]
    rw [List.length_cons, Finset.sum_range_succ']
    simp [Nat.add_comm]

lemma int_eq_ofBits (b : BitString) (h : b.config.length = b.N) :
    b.int = ofBits b.config := by
  have hfun : (fun (dec : ℕ) (x : ℕ) =>
      if b.config.getD x 0 = 1 then dec + 2 ^ (b.N - x - 1) else dec) =
      (fun dec x => dec + if b.config.getD x 0 = 1 then 2 ^ (b.N - x - 1) else 0) := by
    funext dec x
    by_cases hx : b.config.getD x 0 = 1
    · rw [if_pos hx, if_pos hx]
    · rw [if_neg hx, if_neg hx, Nat.add_zero]
  rw [BitString.int, hfun, foldl_add_eq, ofBits_eq_sum, h]
  simp

/-- C4: decoding an in-range integer `d` (`0 ≤ d < 2^N`) into a length-`N`
bitstring with `set_int_config` and re-encoding with `int` returns exactly `d`;
position 0 carries the most significant bit. -/
theorem set_int_config_int_roundtrip (b : BitString) (d : ℕ) (hd : d < 2 ^ b.N) :
    ∃ b', b.set_int_config d = some b' ∧ b'.int = d := by
  have hd' : (d : ℤ) < 2 ^ b.N := by exact_mod_cast hd
  rcases setIntLoop_ofBits b.N d (by positivity) hd' with ⟨c, hc, hval⟩
  refine ⟨⟨b.N, c⟩, ?_, ?_⟩
  · rw [BitString.set_int_config, hc, Option.map_some']
  · have hlen : c.length = b.N := setIntLoop_length _ _ _ hc
    have := int_eq_ofBits ⟨b.N, c⟩ hlen
    rw [this]
    exact_mod_cast hval

/-- C4 witness: the round trip at `N = 3`, `d = 5`, on a receiver with stale bits. -/
theorem set_int_config_int_roundtrip_witness :
    ∃ b', BitString.set_int_config ⟨3, [1, 1, 0]⟩ 5 = some b' ∧ b'.int = 5 :=
  set_int_config_int_roundtrip ⟨3, [1, 1, 0]⟩ 5 (by decide)

lemma setIntLoop_neg (n : ℕ) (d : ℤ) (hn : 0 < n) (hd : d < 0) :
    setIntLoop n d = none := by
  cases n with
  | zero => omega
  | succ m =>
    rw [setIntLoop]
    rw [if_neg (by omega), if_pos hd]

lemma setIntLoop_ge (n : ℕ) (d : ℤ) (hd : 2 ^ n ≤ d) :
    setIntLoop n d = some (List.replicate n 1) := by
  induction n generalizing d with
  | zero => rfl
  | succ m ih =>
    have h1 : (0 : ℤ) < 2 ^ (m + 1) := by positivity
    have h2 : (2 : ℤ) ^ (m + 1) = 2 ^ m + 2 ^ m := by ring
    rw [setIntLoop, if_neg (by omega), if_neg (by omega), if_pos (by omega),
      ih (d - 2 ^ m) (by omega)]
    rfl

/-- C5 (amended): on a bitstring of positive length, `set_int_config` fails (the
`math.log2` call raises) exactly for negative inputs, leaving the receiver
untouched; an input `d ≥ 2^N` is NOT rejected — the loop sets every bit to `1`
and returns normally. -/
theorem set_int_config_out_of_range (b : BitString) (d : ℤ) (hN : 0 < b.N) :
    (d < 0 → b.set_int_config d = none) ∧
    (2 ^ b.N ≤ d → b.set_int_config d = some ⟨b.N, List.replicate b.N 1⟩) := by
  constructor
  · intro hd
    rw [BitString.set_int_config, setIntLoop_neg b.N d hN hd]
    rfl
  · intro hd
    rw [BitString.set_int_config, setIntLoop_ge b.N d hd]
    rfl

/-- C5 counterexample: decoding `d = 4` on a 2-bit configuration does not fail,
although `4 ≥ 2^2`: it succeeds and produces the all-ones configuration. -/
theorem set_int_config_overflow_no_error :
    BitString.set_int_config ⟨2, [0, 0]⟩ 4 = some ⟨2, [1, 1]⟩ ∧ ¬ (4 : ℤ) < 2 ^ 2 := by
  constructor
  · rfl
  · decide

/-- C5 witness: instantiating the amended statement at `N = 2`, `d = -1` and `d = 4`. -/
theorem set_int_config_out_of_range_witness :
    BitString.set_int_config ⟨2, [0, 0]⟩ (-1) = none ∧
      BitString.set_int_config ⟨2, [0, 0]⟩ 4 = some ⟨2, [1, 1]⟩ :=
  ⟨(set_int_config_out_of_range ⟨2, [0, 0]⟩ (-1) (by decide)).1 (by decide),
   (set_int_config_out_of_range ⟨2, [0, 0]⟩ 4 (by decide)).2 (by decide)⟩

/-- C10: `set_int_config` builds its result on a fresh all-zero scratch array, so
two receivers of the same length and arbitrary (different) prior contents end up
with identical bit sequences after decoding the same in-range integer. -/
theorem set_int_config_state_independent (b1 b2 : BitString) (d : ℤ)
    (hN : b1.N = b2.N) (h0 : 0 ≤ d) (h2 : d < 2 ^ b1.N) :
    ∃ c, b1.set_int_config d = some ⟨b1.N, c⟩ ∧ b2.set_int_config d = some ⟨b2.N, c⟩ := by
  rcases setIntLoop_ofBits b1.N d h0 h2 with ⟨c, hc, -⟩
  refine ⟨c, ?_, ?_⟩
  · rw [BitString.set_int_config, hc]
    rfl
  · rw [BitString.set_int_config, ← hN, hc]
    rfl

/-- C10 witness: two 2-bit strings with different stale contents decode `2`
to the same bits. -/
theorem set_int_config_state_independent_witness :
    ∃ c, BitString.set_int_config ⟨2, [1, 0]⟩ 2 = some ⟨2, c⟩ ∧
      BitString.set_int_config ⟨2, [0, 1]⟩ 2 = some ⟨2, c⟩ :=
  set_int_config_state_independent ⟨2, [1, 0]⟩ ⟨2, [0, 1]⟩ 2 rfl (by decide) (by decide)

/-- numpy 1-D integer indexing: an index `i` with `0 ≤ i < len` is used as is, an
index with `-len ≤ i < 0` wraps to `len + i`, anything else raises `IndexError`. -/
def npIndex (len : ℕ) (i : ℤ) : Option ℕ :=
  if 0 ≤ i ∧ i < (len : ℤ) then some i.toNat
  else if -(len : ℤ) ≤ i ∧ i < 0 then some (i + len).toNat
  else none

/-- `BitString.flip_site(i)`: reads `config[i]` (numpy indexing) and writes back
`0` if it was `1`, else `1`. -/
def BitString.flip_site (b : BitString) (i : ℤ) : Option BitString :=
  (npIndex b.config.length i).map (fun j =>
    ⟨b.N, b.config.set j (if b.config.getD j 0 = 1 then 0 else 1)⟩)

/-- The loop of `BitString.__eq__`: compares `self.config[x]` with
`other.config[x]` for `x` from the given start index, with the given number of
iterations remaining; `none` models the `IndexError` raised when `other.config`
is too short to be read at `x`. -/
def eqLoop (ca cb : List ℕ) (x : ℕ) : ℕ → Option Bool
  | 0 => some true
  | r + 1 =>
    match ca.get? x, cb.get? x with
    | some u, some v => if u ≠ v then some false else eqLoop ca cb (x + 1) r
    | _, _ => none

/-- `BitString.__eq__(other)`: loops `x` over `range(self.N)` comparing the two
arrays elementwise; returns `False` at the first mismatch, `True` if none. -/
def BitString.eq (a b : BitString) : Option Bool :=
  eqLoop a.config b.config 0 a.N

/-- `BitString.on()`: counts the entries of `config` equal to `1`. -/
def BitString.on (b : BitString) : ℕ :=
  b.config.foldl (fun ones x => if x = 1 then ones + 1 else ones) 0

/-- `BitString.off()`: counts the entries of `config` equal to `0`. -/
def BitString.off (b : BitString) : ℕ :=
  b.config.foldl (fun zeroes x => if x = 0 then zeroes + 1 else zeroes) 0

/-- `BitString.set_config(s)`: the loop `for x in range(N): config[x] = s[x]`;
raises `IndexError` (modelled as `none`) when `s` has fewer than `N` entries,
otherwise replaces position `x` with `s[x]` for every `x < N` (extra entries of
`s` are ignored). -/
def BitString.set_config (b : BitString) (s : List ℕ) : Option BitString :=
  if b.N ≤ s.length then some ⟨b.N, (List.range b.N).map (fun x => s.getD x 0)⟩
  else none

/-- The bitstrings reachable through the public mutating operations: construction,
a successful in-range `flip_site`, `set_config` with a 0/1 sequence of matching
length, and `set_int_config` with an in-range integer. -/
inductive Reachable : BitString → Prop
  | construct (N : ℕ) : Reachable (BitString.mkZero N)
  | flip (b b' : BitString) (i : ℤ) : Reachable b → b.flip_site i = some b' →
      Reachable b'
  | set (b b' : BitString) (s : List ℕ) : Reachable b → s.length = b.N →
      (∀ v ∈ s, v = 0 ∨ v = 1) → b.set_config s = some b' → Reachable b'
  | setInt (b b' : BitString) (d : ℤ) : Reachable b → 0 ≤ d → d < 2 ^ b.N →
      b.set_int_config d = some b' → Reachable b'

/-- Class invariant of `BitString`: the array has length `N` and holds only
zeros and ones. -/
lemma reachable_invariant (b : BitString) (h : Reachable b) :
    b.config.length = b.N ∧ ∀ v ∈ b.config, v = 0 ∨ v = 1 := by
  induction h with
  | construct N =>
    constructor
    · exact List.length_replicate N 0
    · intro v hv
      left
      exact List.eq_of_mem_replicate hv
  | flip b b' i hb hstep ih =>
    rcases Option.map_eq_some'.mp hstep with ⟨j, hj, hb'⟩
    have hjlt : j < b.config.length := by
      rw [npIndex] at hj
      split at hj
      · rename_i hcase
        simp at hj
        omega
      · split at hj
        · rename_i hcase
          simp at hj
          omega
        · exact absurd hj (by simp)
    constructor
    · rw [← hb']
      simpa using ih.1
    · intro v hv
      rw [← hb'] at hv
      simp at hv
      rcases List.mem_or_eq_of_mem_set hv with h1 | h1
      · exact ih.2 v h1
      · split at h1
        · left; exact h1
        · right; exact h1
  | set b b' s hb hslen hsbits hstep ih =>
    rw [BitString.set_config] at hstep
    split at hstep
    · rename_i hle
      simp at hstep
      constructor
      · rw [← hstep]
        simp
      · intro v hv
        rw [← hstep] at hv
        simp at hv
        rcases hv with ⟨x, hx, hxv⟩
        have hxs : x < s.length := by omega
        have hget : s[x]?.getD 0 = s[x] := by
          rw [List.getElem?_eq_getElem hxs, Option.getD_some]
        rw [hget] at hxv
        rw [← hxv]
        exact hsbits s[x] (List.getElem_mem hxs)
    · exact absurd hstep (by simp)
  | setInt b b' d hb h0 h2 hstep ih =>
    rcases Option.map_eq_some'.mp hstep with ⟨c, hc, hb'⟩
    constructor
    · rw [← hb']
      simpa using setIntLoop_length _ _ _ hc
    · intro v hv
      rw [← hb'] at hv
      exact setIntLoop_bits _ _ _ hc v hv

lemma foldl_count_eq (c : List ℕ) (v : ℕ) : ∀ a : ℕ,
    c.foldl (fun n x => if x = v then n + 1 else n) a = a + c.count v := by
  induction c with
  | nil => intro a; simp
  | cons y t ih =>
    intro a
    by_cases hy : y = v
    · rw [List.foldl_cons, if_pos hy, ih]
      simp [List.count_cons, beq_iff_eq, hy]
      omega
    · rw [List.foldl_cons, if_neg hy, ih]
      simp [List.count_cons, beq_iff_eq, hy]

lemma count_zero_one (c : List ℕ) (h : ∀ v ∈ c, v = 0 ∨ v = 1) :
    c.count 1 + c.count 0 = c.length := by
  induction c with
  | nil => simp
  | cons y t ih =>
    have hy := h y (by simp)
    have ht : ∀ v ∈ t, v = 0 ∨ v = 1 := fun v hv => h v (by simp [hv])
    rcases hy with hy | hy <;>
      simp [List.count_cons, hy, ← ih ht] <;> omega

/-- C9: on every bitstring reachable through the public operations, `on()` and
`off()` partition the positions: their sum is the length `N`. -/
theorem count_on_off (b : BitString) (h : Reachable b) : b.on + b.off = b.N := by
  rcases reachable_invariant b h with ⟨hlen, hbits⟩
  rw [BitString.on, BitString.off, foldl_count_eq, foldl_count_eq, Nat.zero_add,
    Nat.zero_add, count_zero_one b.config hbits, hlen]

/-- C9 witness: the freshly constructed 2-bit string. -/
theorem count_on_off_witness :
    (BitString.mkZero 2).on + (BitString.mkZero 2).off = (BitString.mkZero 2).N :=
  count_on_off (BitString.mkZero 2) (Reachable.construct 2)

lemma eqLoop_spec (ca cb : List ℕ) : ∀ (r x : ℕ), x + r ≤ ca.length →
    x + r ≤ cb.length →
    (eqLoop ca cb x r = some true ↔
      ∀ k, x ≤ k → k < x + r → ca.getD k 0 = cb.getD k 0) := by
  intro r
  induction r with
  | zero =>
    intro x ha hb
    constructor
    · intro _ k hk1 hk2
      omega
    · intro _
      rfl
  | succ m ih =>
    intro x ha hb
    have hxa : x < ca.length := by omega
    have hxb : x < cb.length := by omega
    rw [eqLoop, List.get?_eq_getElem? , List.get?_eq_getElem?,
      List.getElem?_eq_getElem hxa, List.getElem?_eq_getElem hxb]
    show (if ca[x] ≠ cb[x] then some false else eqLoop ca cb (x + 1) m) = some true ↔
      ∀ k, x ≤ k → k < x + (m + 1) → ca.getD k 0 = cb.getD k 0
    by_cases huv : ca[x] = cb[x]
    · rw [if_neg (by simpa using huv)]
      rw [ih (x + 1) (by omega) (by omega)]
      constructor
      · intro h k hk1 hk2
        by_cases hkx : k = x
        · subst hkx
          rw [List.getD_eq_getElem ca 0 hxa, List.getD_eq_getElem cb 0 hxb]
          exact huv
        · exact h k (by omega) (by omega)
      · intro h k hk1 hk2
        exact h k (by omega) (by omega)
    · rw [if_pos huv]
      constructor
      · intro h
        exact absurd h (by simp)
      · intro h
        have := h x (by omega) (by omega)
        rw [List.getD_eq_getElem ca 0 hxa, List.getD_eq_getElem cb 0 hxb] at this
        exact absurd this huv

/-- C6 counterexample: `__eq__` compares only the first `self.N` positions, so a
length-2 configuration compares equal to a length-3 configuration sharing its
first two bits. -/
theorem eq_ignores_extra_length :
    BitString.eq ⟨2, [0, 0]⟩ ⟨3, [0, 0, 1]⟩ = some true ∧
      (⟨2, [0, 0]⟩ : BitString).N ≠ (⟨3, [0, 0, 1]⟩ : BitString).N := by
  constructor
  · rfl
  · decide

/-- C6 (amended): `__eq__` never inspects the lengths: when `other`'s array has
at least `self.N` entries it returns `True` exactly when the first `self.N`
positions of the two arrays agree — configurations of different lengths can
therefore compare equal. -/
theorem eq_spec (a b : BitString) (ha : a.config.length = a.N)
    (hb : a.N ≤ b.config.length) :
    a.eq b = some true ↔ ∀ k < a.N, a.config.getD k 0 = b.config.getD k 0 := by
  rw [BitString.eq, eqLoop_spec a.config b.config a.N 0 (by omega) (by omega)]
  constructor
  · intro h k hk
    exact h k (by omega) (by omega)
  · intro h k _ hk
    exact h k (by omega)

/-- C6 witness: two identical 2-bit strings compare equal. -/
theorem eq_spec_witness : BitString.eq ⟨2, [1, 0]⟩ ⟨2, [1, 0]⟩ = some true :=
  (eq_spec ⟨2, [1, 0]⟩ ⟨2, [1, 0]⟩ rfl (by decide)).mpr (by decide)

/-- C7 counterexample: `flip_site(-1)` on a 2-bit string does not fail — numpy
wraps the negative index and the last bit is toggled. -/
theorem flip_site_negative_no_error :
    BitString.flip_site ⟨2, [0, 0]⟩ (-1) = some ⟨2, [0, 1]⟩ ∧ (-1 : ℤ) < 0 := by
  constructor
  · rfl
  · decide

/-- C7 (amended): on a well-formed bitstring, `flip_site(i)` toggles bit `i` in
place for `0 ≤ i < N`, toggles bit `N + i` for `-N ≤ i < 0` (numpy negative
indexing), and fails with `IndexError` only for `i < -N` or `i ≥ N`. -/
theorem flip_site_spec (b : BitString) (hlen : b.config.length = b.N)
    (hbits : ∀ v ∈ b.config, v = 0 ∨ v = 1) (i : ℤ) :
    (0 ≤ i ∧ i < (b.N : ℤ) →
      b.flip_site i = some ⟨b.N, b.config.set i.toNat (1 - b.config.getD i.toNat 0)⟩) ∧
    (-(b.N : ℤ) ≤ i ∧ i < 0 →
      b.flip_site i =
        some ⟨b.N, b.config.set (i + b.N).toNat (1 - b.config.getD (i + b.N).toNat 0)⟩) ∧
    ((i < -(b.N : ℤ) ∨ (b.N : ℤ) ≤ i) → b.flip_site i = none) := by
  have hflip : ∀ j : ℕ, j < b.config.length →
      (if b.config.getD j 0 = 1 then 0 else 1) = 1 - b.config.getD j 0 := by
    intro j hj
    have hmem : b.config.getD j 0 ∈ b.config := by
      rw [List.getD_eq_getElem b.config 0 hj]
      exact List.getElem_mem hj
    rcases hbits _ hmem with h0 | h0 <;> rw [h0] <;> simp
  refine ⟨?_, ?_, ?_⟩
  · intro hi
    rw [BitString.flip_site, npIndex, if_pos (by rw [hlen]; exact hi)]
    rw [Option.map_some']
    rw [hflip i.toNat (by rw [hlen]; omega)]
  · intro hi
    rw [BitString.flip_site, npIndex, if_neg (by rw [hlen]; omega),
      if_pos (by rw [hlen]; omega)]
    rw [Option.map_some']
    rw [hflip (i + b.config.length).toNat (by omega), hlen]
  · intro hi
    rw [BitString.flip_site, npIndex, if_neg (by rw [hlen]; omega),
      if_neg (by rw [hlen]; omega)]
    rfl

/-- C7 witness: flipping bit 0 of `[0, 1]` and bit 1 via the wrapped index `-1`. -/
theorem flip_site_spec_witness :
    BitString.flip_site ⟨2, [0, 1]⟩ 0 =
        some ⟨2, List.set [0, 1] ((0 : ℤ)).toNat (1 - List.getD [0, 1] ((0 : ℤ)).toNat 0)⟩ ∧
      BitString.flip_site ⟨2, [0, 1]⟩ 3 = none :=
  ⟨(flip_site_spec ⟨2, [0, 1]⟩ rfl (by decide) 0).1 (by decide),
   (flip_site_spec ⟨2, [0, 1]⟩ rfl (by decide) 3).2.2 (by decide)⟩

/-- The `IsingHamiltonian` class: per-site coupling lists `J` (pairs of neighbor
index and coupling strength) and local field vector `mu`.  The constructor's
`nodes`/`js` arrays are a direct copy of `J` and are not modelled separately;
`N = len(J)`. -/
structure IsingHamiltonian where
  J : List (List (ℕ × ℚ))
  mu : List ℚ

/-- The accumulator computed by `IsingHamiltonian.energy` after its dimension
check: the double loop over sites `i` and pairs `(j, Jij)` in `J[i]` — skipping
pairs with `j < i`, adding `Jij` on equal bits and subtracting it otherwise —
followed by `np.dot(mu, 2 * config - 1)`. -/
def eVal (H : IsingHamiltonian) (c : BitString) : ℚ :=
  (List.range c.N).foldl
    (fun e i => (H.J.getD i []).foldl
      (fun e p => if p.1 < i then e
        else if c.config.getD i 0 = c.config.getD p.1 0 then e + p.2 else e - p.2) e) 0
  + (List.zipWith (fun (m : ℚ) (x : ℕ) => m * (2 * (x : ℚ) - 1)) H.mu c.config).sum

/-- `IsingHamiltonian.energy(config)`: raises (`error("wrong dimension")`) when
`len(config.config) != len(J)`, otherwise returns the accumulated energy. -/
def IsingHamiltonian.energy (H : IsingHamiltonian) (c : BitString) : Option ℚ :=
  if c.config.length ≠ H.J.length then none else some (eVal H c)

/-- C8: calling `energy` with a configuration whose length differs from the
model's site count fails at the point of the call and returns no energy value. -/
theorem energy_dimension_mismatch (H : IsingHamiltonian) (c : BitString)
    (h : c.config.length ≠ H.J.length) : H.energy c = none := by
  rw [IsingHamiltonian.energy, if_pos h]

/-- C8 witness: a 2-bit configuration against a 1-site model. -/
theorem energy_dimension_mismatch_witness :
    IsingHamiltonian.energy ⟨[[]], [1]⟩ ⟨2, [0, 0]⟩ = none :=
  energy_dimension_mismatch ⟨[[]], [1]⟩ ⟨2, [0, 0]⟩ (by decide)

lemma foldl_add_sum {M : Type} [AddCommMonoid M] (g : ℕ → M) (n : ℕ) (init : M) :
    (List.range n).foldl (fun a x => a + g x) init =
      init + ∑ x ∈ Finset.range n, g x := by
  induction n generalizing init with
  | zero => simp
  | succ m ih =>
    rw [List.range_succ, List.foldl_append, ih, Finset.sum_range_succ]
    simp [add_assoc]

lemma inner_fold (i : ℕ) (c : List ℕ) (row : List (ℕ × ℚ)) : ∀ e : ℚ,
    row.foldl (fun e p => if p.1 < i then e
      else if c.getD i 0 = c.getD p.1 0 then e + p.2 else e - p.2) e
    = e + ((row.filter (fun p => decide (¬ p.1 < i))).map
        (fun p => if c.getD i 0 = c.getD p.1 0 then p.2 else -p.2)).sum := by
  induction row with
  | nil => intro e; simp
  | cons q t ih =>
    intro e
    rw [List.foldl_cons]
    by_cases hq : q.1 < i
    · have hfil : List.filter (fun p => decide (¬ p.1 < i)) (q :: t) =
          List.filter (fun p => decide (¬ p.1 < i)) t := by
        rw [List.filter_cons, if_neg (by simpa using hq)]
      rw [if_pos hq, ih, hfil]
    · have hfil : List.filter (fun p => decide (¬ p.1 < i)) (q :: t) =
          q :: List.filter (fun p => decide (¬ p.1 < i)) t := by
        rw [List.filter_cons, if_pos (by simpa using hq)]
      rw [if_neg hq, hfil, List.map_cons, List.sum_cons]
      by_cases hb : c.getD i 0 = c.getD q.1 0
      · rw [if_pos hb, ih, if_pos hb]
        ring
      · rw [if_neg hb, ih, if_neg hb]
        ring

lemma zipWith_sum_getD (f : ℚ → ℕ → ℚ) :
    ∀ (n : ℕ) (a : List ℚ) (b : List ℕ), a.length = n → b.length = n →
      (List.zipWith f a b).sum = ∑ i ∈ Finset.range n, f (a.getD i 0) (b.getD i 0) := by
  intro n
  induction n with
  | zero =>
    intro a b ha hb
    rw [List.length_eq_zero.mp ha, List.length_eq_zero.mp hb]
    simp
  | succ m ih =>
    intro a b ha hb
    match a, b with
    | x :: a', y :: b' =>
      rw [List.zipWith_cons_cons, List.sum_cons, Finset.sum_range_succ']
      rw [ih a' b' (by simpa using ha) (by simpa using hb)]
      simp [add_comm]

/-- C1: on a well-formed model and a matching-length configuration, `energy`
returns the sum over sites `i` and pairs `(j, Jij)` of site `i`'s coupling list
with `j ≥ i` of `+Jij` when bits `i` and `j` agree and `-Jij` when they differ
(pairs with `j < i` skipped), plus the field term `∑ i, mu_i * (2*bit_i - 1)`. -/
theorem energy_eq_sum (H : IsingHamiltonian) (c : BitString)
    (hN : c.N = c.config.length) (hlen : c.config.length = H.J.length)
    (hmu : H.mu.length = H.J.length) (_hbits : ∀ v ∈ c.config, v = 0 ∨ v = 1) :
    H.energy c = some (
      (∑ i ∈ Finset.range H.J.length,
        (((H.J.getD i []).filter (fun p => decide (¬ p.1 < i))).map
          (fun p => if c.config.getD i 0 = c.config.getD p.1 0 then p.2 else -p.2)).sum)
      + ∑ i ∈ Finset.range H.J.length,
          H.mu.getD i 0 * (2 * (c.config.getD i 0 : ℚ) - 1)) := by
  rw [IsingHamiltonian.energy, if_neg (by rw [hlen]; exact fun h => h rfl)]
  congr 1
  rw [eVal]
  congr 1
  · have hfun : (fun (e : ℚ) (i : ℕ) => (H.J.getD i []).foldl
        (fun e p => if p.1 < i then e
          else if c.config.getD i 0 = c.config.getD p.1 0 then e + p.2 else e - p.2) e)
        = fun (e : ℚ) (i : ℕ) => e + (((H.J.getD i []).filter (fun p => decide (¬ p.1 < i))).map
          (fun p => if c.config.getD i 0 = c.config.getD p.1 0 then p.2 else -p.2)).sum := by
      funext e i
      exact inner_fold i c.config (H.J.getD i []) e
    rw [hfun, foldl_add_sum, zero_add, hN, hlen]
  · exact zipWith_sum_getD _ H.J.length H.mu c.config hmu hlen

/-- C1 witness: two sites with couplings `[(1,2), (0,3)]` at site 0 and `[(0,5)]`
at site 1 (the latter skipped since `0 < 1`), fields `[7, 11]`, configuration
`[1, 0]`: energy `-2 + 3 + 7 - 11 = -3`. -/
theorem energy_eq_sum_witness :
    IsingHamiltonian.energy ⟨[[(1, 2), (0, 3)], [(0, 5)]], [7, 11]⟩ ⟨2, [1, 0]⟩ =
      some (-3) := by
  rw [energy_eq_sum ⟨[[(1, 2), (0, 3)], [(0, 5)]], [7, 11]⟩ ⟨2, [1, 0]⟩ rfl rfl rfl
    (by decide)]
  simp [Finset.sum_range_succ]
  norm_num

/-- One iteration of the loop of `get_lowest_energy_config`: decode index `i`,
compute its energy, and update `(emin, xmin)` only on strict improvement. -/
def lowStep (H : IsingHamiltonian) (s : ℚ × Option ℕ) (i : ℕ) : Option (ℚ × Option ℕ) :=
  (setIntLoop H.J.length (i : ℤ)).bind (fun c =>
    (H.energy ⟨H.J.length, c⟩).map (fun e =>
      if e < s.1 then (e, some i) else s))

/-- `IsingHamiltonian.get_lowest_energy_config()`: initialize `emin` from the
energy of configuration 0 and `xmin = None`, loop over all `2^N` integer
indices updating on strict `<`, then decode `xmin`.  When `xmin` was never
assigned, the final `set_int_config(None)` calls `math.log2(None)` and raises a
`TypeError`, modelled by the `none` branch of the match. -/
def IsingHamiltonian.get_lowest_energy_config (H : IsingHamiltonian) :
    Option (ℚ × List ℕ) :=
  (setIntLoop H.J.length 0).bind (fun c0 =>
    (H.energy ⟨H.J.length, c0⟩).bind (fun e0 =>
      ((List.range (2 ^ H.J.length)).foldlM (lowStep H) (e0, (none : Option ℕ))).bind
        (fun s =>
          match s.2 with
          | none => none
          | some xmin => (setIntLoop H.J.length (xmin : ℤ)).map (fun cm => (s.1, cm)))))

/-- C2 (code bug): on the 1-site model with no couplings and field `mu = [1]`,
the minimum energy `-1` is attained at integer index 0 and no later index is a
strict improvement, so `xmin` keeps its initial unset value and the final decode
of it raises instead of returning `(-1, [0])`. -/
theorem get_lowest_energy_config_index_zero_crash :
    IsingHamiltonian.get_lowest_energy_config ⟨[[]], [1]⟩ = none ∧
      IsingHamiltonian.energy ⟨[[]], [1]⟩ ⟨1, [0]⟩ = some (-1) ∧
      IsingHamiltonian.energy ⟨[[]], [1]⟩ ⟨1, [1]⟩ = some 1 := by
  refine ⟨?_, ?_, ?_⟩
  · simp [IsingHamiltonian.get_lowest_energy_config, lowStep, IsingHamiltonian.energy,
      eVal, setIntLoop, List.range_succ]
    norm_num
  · norm_num [IsingHamiltonian.energy, eVal]
  · norm_num [IsingHamiltonian.energy, eVal]

/-- `np.sum(2 * conf.config - 1)`: the net spin (magnetization) of a configuration. -/
def magVal (c : List ℕ) : ℤ :=
  (c.map (fun x => 2 * (x : ℤ) - 1)).sum

/-- The configuration decoded from the integer index `i` by `set_int_config`
(always defined, since the loop only raises on negative inputs). -/
def confAt (n i : ℕ) : List ℕ :=
  (setIntLoop n (i : ℤ)).getD []

lemma setIntLoop_isSome : ∀ (n : ℕ) (d : ℤ), 0 ≤ d → (setIntLoop n d).isSome := by
  intro n
  induction n with
  | zero => intro d _; rfl
  | succ m ih =>
    intro d hd
    rw [setIntLoop]
    by_cases h0 : d = 0
    · rw [if_pos h0]; rfl
    · rw [if_neg h0, if_neg (by omega)]
      by_cases hge : 2 ^ m ≤ d
      · rw [if_pos hge, Option.isSome_map']
        exact ih (d - 2 ^ m) (by omega)
      · rw [if_neg hge, Option.isSome_map']
        exact ih d hd

lemma setIntLoop_nat_eq (n i : ℕ) : setIntLoop n (i : ℤ) = some (confAt n i) := by
  rcases Option.isSome_iff_exists.mp (setIntLoop_isSome n i (by positivity)) with ⟨c, hc⟩
  rw [confAt, hc, Option.getD_some]

lemma confAt_length (n i : ℕ) : (confAt n i).length = n :=
  setIntLoop_length n i (confAt n i) (setIntLoop_nat_eq n i)

/-- Energy of the configuration at enumeration index `i` (the `E_i` of the
thermal-average formulas). -/
def enumE (H : IsingHamiltonian) (i : ℕ) : ℚ :=
  eVal H ⟨H.J.length, confAt H.J.length i⟩

/-- Net spin of the configuration at enumeration index `i` (the `M_i` of the
thermal-average formulas). -/
def enumM (H : IsingHamiltonian) (i : ℕ) : ℤ :=
  magVal (confAt H.J.length i)

/-- Boltzmann weight `exp(-E_i / T)` of enumeration index `i`. -/
noncomputable def enumW (H : IsingHamiltonian) (T : ℝ) (i : ℕ) : ℝ :=
  Real.exp (-(enumE H i : ℝ) / T)

/-- Partition function: sum of the Boltzmann weights of all `2^N` configurations. -/
noncomputable def partZ (H : IsingHamiltonian) (T : ℝ) : ℝ :=
  ∑ i ∈ Finset.range (2 ^ H.J.length), enumW H T i

/-- Normalized average energy `E`. -/
noncomputable def avgE (H : IsingHamiltonian) (T : ℝ) : ℝ :=
  (∑ i ∈ Finset.range (2 ^ H.J.length), (enumE H i : ℝ) * enumW H T i) / partZ H T

/-- Normalized average squared energy `EE / Z`. -/
noncomputable def avgEE (H : IsingHamiltonian) (T : ℝ) : ℝ :=
  (∑ i ∈ Finset.range (2 ^ H.J.length),
    (enumE H i : ℝ) * (enumE H i : ℝ) * enumW H T i) / partZ H T

/-- Normalized average magnetization `M`. -/
noncomputable def avgM (H : IsingHamiltonian) (T : ℝ) : ℝ :=
  (∑ i ∈ Finset.range (2 ^ H.J.length), (enumM H i : ℝ) * enumW H T i) / partZ H T

/-- Normalized average squared magnetization `MM / Z`. -/
noncomputable def avgMM (H : IsingHamiltonian) (T : ℝ) : ℝ :=
  (∑ i ∈ Finset.range (2 ^ H.J.length),
    (enumM H i : ℝ) * (enumM H i : ℝ) * enumW H T i) / partZ H T

/-- One iteration of the loop of `compute_average_values`: decode index `i`,
compute `Ei`, `Zi = exp(-Ei/T)` and `Mi`, and add `Ei*Zi`, `Ei*Ei*Zi`, `Mi*Zi`,
`Mi*Mi*Zi` and `Zi` to the running sums `(E, EE, M, MM, Z)`. -/
noncomputable def cavStep (H : IsingHamiltonian) (T : ℝ) (s : ℝ × ℝ × ℝ × ℝ × ℝ)
    (i : ℕ) : Option (ℝ × ℝ × ℝ × ℝ × ℝ) :=
  (setIntLoop H.J.length (i : ℤ)).bind (fun c =>
    (H.energy ⟨H.J.length, c⟩).map (fun (Ei : ℚ) =>
      (s.1 + (Ei : ℝ) * Real.exp (-(Ei : ℝ) / T),
       s.2.1 + (Ei : ℝ) * (Ei : ℝ) * Real.exp (-(Ei : ℝ) / T),
       s.2.2.1 + (magVal c : ℝ) * Real.exp (-(Ei : ℝ) / T),
       s.2.2.2.1 + (magVal c : ℝ) * (magVal c : ℝ) * Real.exp (-(Ei : ℝ) / T),
       s.2.2.2.2 + Real.exp (-(Ei : ℝ) / T))))

/-- `IsingHamiltonian.compute_average_values(T)`: loop over all `2^N` integer
indices accumulating `(E, EE, M, MM, Z)`, then normalize by `Z` and return
`(E, M, HC, MS)` with `HC = (EE - E*E)/(T*T)` and `MS = (MM - M*M)/T`. -/
noncomputable def IsingHamiltonian.compute_average_values (H : IsingHamiltonian)
    (T : ℝ) : Option (ℝ × ℝ × ℝ × ℝ) :=
  ((List.range (2 ^ H.J.length)).foldlM (cavStep H T) (0, 0, 0, 0, 0)).map
    (fun s =>
      (s.1 / s.2.2.2.2,
       s.2.2.1 / s.2.2.2.2,
       (s.2.1 / s.2.2.2.2 - s.1 / s.2.2.2.2 * (s.1 / s.2.2.2.2)) / (T * T),
       (s.2.2.2.1 / s.2.2.2.2 - s.2.2.1 / s.2.2.2.2 * (s.2.2.1 / s.2.2.2.2)) / T))

/-- The per-index update of the thermal-average loop, as a total function. -/
noncomputable def cavNext (H : IsingHamiltonian) (T : ℝ) (s : ℝ × ℝ × ℝ × ℝ × ℝ)
    (i : ℕ) : ℝ × ℝ × ℝ × ℝ × ℝ :=
  (s.1 + (enumE H i : ℝ) * enumW H T i,
   s.2.1 + (enumE H i : ℝ) * (enumE H i : ℝ) * enumW H T i,
   s.2.2.1 + (enumM H i : ℝ) * enumW H T i,
   s.2.2.2.1 + (enumM H i : ℝ) * (enumM H i : ℝ) * enumW H T i,
   s.2.2.2.2 + enumW H T i)

lemma cavStep_eq (H : IsingHamiltonian) (T : ℝ) (s : ℝ × ℝ × ℝ × ℝ × ℝ) (i : ℕ) :
    cavStep H T s i = some (cavNext H T s i) := by
  rw [cavStep, setIntLoop_nat_eq, Option.some_bind, IsingHamiltonian.energy,
    if_neg (by rw [confAt_length]; exact fun h => h rfl), Option.map_some']
  rfl

lemma foldlM_eq_foldl {α β : Type} (f : β → α → Option β) (g : β → α → β)
    (hfg : ∀ s a, f s a = some (g s a)) :
    ∀ (l : List α) (s : β), l.foldlM f s = some (l.foldl g s) := by
  intro l
  induction l with
  | nil => intro s; rfl
  | cons a t ih =>
    intro s
    rw [List.foldlM_cons, hfg, List.foldl_cons]
    exact ih (g s a)

lemma cav_foldl (H : IsingHamiltonian) (T : ℝ) : ∀ m : ℕ,
    (List.range m).foldl (cavNext H T) (0, 0, 0, 0, 0) =
      (∑ i ∈ Finset.range m, (enumE H i : ℝ) * enumW H T i,
       ∑ i ∈ Finset.range m, (enumE H i : ℝ) * (enumE H i : ℝ) * enumW H T i,
       ∑ i ∈ Finset.range m, (enumM H i : ℝ) * enumW H T i,
       ∑ i ∈ Finset.range m, (enumM H i : ℝ) * (enumM H i : ℝ) * enumW H T i,
       ∑ i ∈ Finset.range m, enumW H T i) := by
  intro m
  induction m with
  | zero => simp
  | succ k ih =>
    rw [List.range_succ, List.foldl_append, ih, List.foldl_cons, List.foldl_nil]
    simp [cavNext, Finset.sum_range_succ]

/-- C3: for positive temperature `T`, `compute_average_values` iterates all
`2^N` integer indices, accumulates the Boltzmann-weighted sums, and returns
`(E, M, HC, MS)` with `E` and `M` the normalized averages,
`HC = (EE/Z - E^2)/T^2` and `MS = (MM/Z - M^2)/T`. -/
theorem compute_average_values_eq (H : IsingHamiltonian) (T : ℝ) (_hT : 0 < T) :
    H.compute_average_values T =
      some (avgE H T, avgM H T,
        (avgEE H T - avgE H T * avgE H T) / (T * T),
        (avgMM H T - avgM H T * avgM H T) / T) := by
  rw [IsingHamiltonian.compute_average_values,
    foldlM_eq_foldl (cavStep H T) (cavNext H T) (cavStep_eq H T),
    cav_foldl H T (2 ^ H.J.length), Option.map_some']
  rfl

/-- C3 witness: the one-site model with field `mu = [1]` at `T = 1`. -/
theorem compute_average_values_eq_witness :
    IsingHamiltonian.compute_average_values ⟨[[]], [1]⟩ 1 =
      some (avgE ⟨[[]], [1]⟩ 1, avgM ⟨[[]], [1]⟩ 1,
        (avgEE ⟨[[]], [1]⟩ 1 - avgE ⟨[[]], [1]⟩ 1 * avgE ⟨[[]], [1]⟩ 1) / (1 * 1),
        (avgMM ⟨[[]], [1]⟩ 1 - avgM ⟨[[]], [1]⟩ 1 * avgM ⟨[[]], [1]⟩ 1) / 1) :=
  compute_average_values_eq ⟨[[]], [1]⟩ 1 zero_lt_one
